import Mathlib

/-!
Shallow embedding of `simple_dav_client.py` and verification of the
specification's claims about it.

Conventions of the embedding:
* A path-component sequence (the Python `COWList[str]`) is a `List String`
  where only component equality matters, and a `List (List Nat)` (a list of
  byte strings) where the byte-level content matters (percent-encoding).
* The HTTP transport is external to the program; a stateful transport is
  passed in explicitly as a function from state and path to result and new
  state, and the depth-1 listing response is passed in as the pair list the
  Python generator `iterate_listings_and_is_directories` yields.
* The local filesystem consulted by `iterate_put_actions` is passed in as an
  inductive tree; `os.path.isfile` and `os.path.isdir` become its cases.
* Python generators become functions returning the list of yielded items,
  wrapped in `Except` when the generator can raise; recursions of the source
  that are not structurally terminating (they depend on server answers) get
  an explicit fuel parameter.
-/

namespace SimpleDav

/-- A remote or local path as a sequence of string components. -/
abbrev Path := List String

/-- Error taxonomy of the client (spec section 7): `pathSyntax` embeds the
`ValueError` raised by the two path parsers, `invalidLocator` the
`ValueError` raised by `href_to_remote_path_components`, `unsupportedPath`
the `ValueError` raised by `iterate_put_actions`, `indexOutOfRange` a Python
`IndexError` from indexing `[-1]` on an empty sequence, and `outOfFuel`
exhaustion of the step budget of a fuel-indexed embedding. -/
inductive DavErr where
  | pathSyntax
  | invalidLocator
  | unsupportedPath
  | indexOutOfRange
  | outOfFuel
deriving DecidableEq

/-- `ListResult` and its three subclasses `NotFound`, `IsFile`,
`IsDirectory`. -/
inductive ListResult where
  | NotFound
  | IsFile (file_path_components : Path)
  | IsDirectory (containing_file_path_components : List Path)
      (containing_directory_path_components : List Path)
deriving DecidableEq

/-- `GetAction` and its two subclasses. -/
inductive GetAction where
  | DownloadRemoteFile (remote_file_path_components : Path)
      (relative_local_file_path_components : Path)
  | CreateLocalDirectory (relative_local_directory_path_components : Path)
deriving DecidableEq

/-- `PutAction` and its two subclasses.  The local file path of
`UploadLocalFile` is also kept as a component sequence. -/
inductive PutAction where
  | UploadLocalFile (local_file_path : Path)
      (relative_remote_file_path_components : Path)
  | CreateRemoteDirectory (relative_remote_directory_path_components : Path)
deriving DecidableEq

/-! ### Python `dict` built from a pair list

`dict(pairs)` keeps insertion order of the first occurrence of a key and the
value of its last occurrence. -/

/-- One insertion step of Python `dict` construction. -/
def dictInsert (d : List (Path × Bool)) (k : Path) (v : Bool) :
    List (Path × Bool) :=
  if k ∈ d.map Prod.fst then
    d.map (fun e => if e.1 = k then (k, v) else e)
  else d ++ [(k, v)]

/-- Python `dict(pairs)` as an ordered association list. -/
def pyDict (l : List (Path × Bool)) : List (Path × Bool) :=
  l.foldl (fun d e => dictInsert d e.1 e.2) []

/-- Python `d[k]` / `k in d` on the association list. -/
def dictGet : List (Path × Bool) → Path → Option Bool
  | [], _ => none
  | e :: d, k => if e.1 = k then some e.2 else dictGet d k

theorem dictInsert_map_fst (d : List (Path × Bool)) (k : Path) (v : Bool) :
    (dictInsert d k v).map Prod.fst
      = if k ∈ d.map Prod.fst then d.map Prod.fst
        else d.map Prod.fst ++ [k] := by
  unfold dictInsert
  split
  · rw [List.map_map]
    congr 1
    funext e
    by_cases h : e.1 = k <;> simp [h]
  · simp

theorem nodup_map_fst_dictInsert (d : List (Path × Bool)) (k : Path)
    (v : Bool) (h : (d.map Prod.fst).Nodup) :
    ((dictInsert d k v).map Prod.fst).Nodup := by
  rw [dictInsert_map_fst]
  split
  · exact h
  · next hk =>
    rw [List.nodup_append]
    refine ⟨h, List.nodup_singleton k, ?_⟩
    intro a ha hak
    rw [List.mem_singleton] at hak
    exact hk (hak ▸ ha)

theorem nodup_map_fst_pyDict (l : List (Path × Bool)) :
    ((pyDict l).map Prod.fst).Nodup := by
  suffices h : ∀ d : List (Path × Bool), (d.map Prod.fst).Nodup →
      ((l.foldl (fun d e => dictInsert d e.1 e.2) d).map Prod.fst).Nodup by
    exact h [] (by simp)
  induction l with
  | nil => intro d hd; simpa using hd
  | cons e l ih =>
    intro d hd
    exact ih _ (nodup_map_fst_dictInsert d e.1 e.2 hd)

theorem mem_of_dictGet {d : List (Path × Bool)} {k : Path} {b : Bool}
    (h : dictGet d k = some b) : (k, b) ∈ d := by
  induction d with
  | nil => simp [dictGet] at h
  | cons e d ih =>
    rw [dictGet] at h
    split at h
    · next he =>
      cases h
      have hke : (k, e.2) = e := by cases e; simp_all
      rw [hke]
      exact List.mem_cons_self _ _
    · exact List.mem_cons_of_mem _ (ih h)

theorem dictGet_of_mem {d : List (Path × Bool)} {k : Path} {b : Bool}
    (hd : (d.map Prod.fst).Nodup) (h : (k, b) ∈ d) : dictGet d k = some b := by
  induction d with
  | nil => simp at h
  | cons e d ih =>
    simp only [List.map_cons, List.nodup_cons] at hd
    rcases List.mem_cons.1 h with h | h
    · rw [← h, dictGet, if_pos rfl]
    · rw [dictGet]
      split
      · next he =>
        exact absurd (he ▸ (List.mem_map.2 ⟨(k, b), h, rfl⟩)) hd.1
      · exact ih hd.2 h

theorem dictGet_isSome_iff_mem_fst {d : List (Path × Bool)} {k : Path} :
    (∃ b, dictGet d k = some b) ↔ k ∈ d.map Prod.fst := by
  constructor
  · rintro ⟨b, hb⟩
    exact List.mem_map.2 ⟨(k, b), mem_of_dictGet hb, rfl⟩
  · rintro h
    rcases List.mem_map.1 h with ⟨e, he, hek⟩
    induction d with
    | nil => simp at he
    | cons e₀ d ih =>
      rw [dictGet]
      split
      · exact ⟨e₀.2, rfl⟩
      · next hne =>
        rcases List.mem_cons.1 he with h₀ | h₀
        · exact absurd (h₀ ▸ hek) hne
        · exact ih (List.mem_map.2 ⟨e, h₀, hek⟩) h₀

/-! ### The listing classifier -/

/-- `SimpleDAVClient.list_remote_file_or_directory`.  The depth-1 listing
response of the server, as yielded pairwise by
`iterate_listings_and_is_directories`, is supplied as the `listings` data. -/
def list_remote_file_or_directory (listings : List (Path × Bool))
    (remote_path_components : Path) : ListResult :=
  match dictGet (pyDict listings) remote_path_components with
  | none => .NotFound
  | some false => .IsFile remote_path_components
  | some true =>
    .IsDirectory
      ((((pyDict listings).filter (fun e => e.1 ≠ remote_path_components)).filter
        (fun e => e.2 = false)).map Prod.fst)
      ((((pyDict listings).filter (fun e => e.1 ≠ remote_path_components)).filter
        (fun e => e.2 = true)).map Prod.fst)

/-- C1: `list_remote_file_or_directory` builds the mapping `pyDict listings`
from entry path to directory flag and returns `NotFound` when the target is
absent from it, `IsFile` carrying the target path when present with a false
flag, and `IsDirectory` whose child files and child directories exactly
partition all mapped entries other than the target according to their flag:
each non-target entry is in exactly one of the two lists, each list is
duplicate-free and flag-homogeneous, and the target is in neither. -/
theorem claim_C1 (listings : List (Path × Bool)) (target : Path) :
    (dictGet (pyDict listings) target = none →
      list_remote_file_or_directory listings target = .NotFound)
    ∧ (dictGet (pyDict listings) target = some false →
      list_remote_file_or_directory listings target = .IsFile target)
    ∧ (∀ files dirs,
      list_remote_file_or_directory listings target = .IsDirectory files dirs →
      dictGet (pyDict listings) target = some true
      ∧ target ∉ files ∧ target ∉ dirs
      ∧ files.Nodup ∧ dirs.Nodup
      ∧ (∀ p, p ∈ files → p ≠ target ∧ dictGet (pyDict listings) p = some false)
      ∧ (∀ p, p ∈ dirs → p ≠ target ∧ dictGet (pyDict listings) p = some true)
      ∧ (∀ p b, dictGet (pyDict listings) p = some b → p ≠ target →
          p ∈ files ∨ p ∈ dirs)
      ∧ (∀ p, ¬(p ∈ files ∧ p ∈ dirs))) := by
  have hnd : ((pyDict listings).map Prod.fst).Nodup := nodup_map_fst_pyDict listings
  refine ⟨?_, ?_, ?_⟩
  · intro h
    simp only [list_remote_file_or_directory, h]
  · intro h
    simp only [list_remote_file_or_directory, h]
  · intro files dirs h
    unfold list_remote_file_or_directory at h
    set d := pyDict listings with hd
    rcases hg : dictGet d target with _ | b
    · rw [hg] at h; exact absurd h (by simp)
    · rcases b with _ | _
      · rw [hg] at h; exact absurd h (by simp)
      · rw [hg] at h
        simp only [ListResult.IsDirectory.injEq] at h
        obtain ⟨hf, hdir⟩ := h
        have hrest : ∀ e : Path × Bool,
            e ∈ d.filter (fun e => e.1 ≠ target) → e ∈ d ∧ e.1 ≠ target := by
          intro e he
          have := List.mem_filter.1 he
          exact ⟨this.1, by simpa using this.2⟩
        have hfiles_mem : ∀ p, p ∈ files →
            p ≠ target ∧ dictGet d p = some false := by
          intro p hp
          rw [← hf] at hp
          rcases List.mem_map.1 hp with ⟨e, he, hep⟩
          rcases List.mem_filter.1 he with ⟨he₁, he₂⟩
          rcases hrest e he₁ with ⟨hed, hene⟩
          have he2 : e.2 = false := by simpa using he₂
          refine ⟨hep ▸ hene, ?_⟩
          have : e = (p, false) := by
            cases e; simp_all
          exact dictGet_of_mem hnd (this ▸ hed)
        have hdirs_mem : ∀ p, p ∈ dirs →
            p ≠ target ∧ dictGet d p = some true := by
          intro p hp
          rw [← hdir] at hp
          rcases List.mem_map.1 hp with ⟨e, he, hep⟩
          rcases List.mem_filter.1 he with ⟨he₁, he₂⟩
          rcases hrest e he₁ with ⟨hed, hene⟩
          have he2 : e.2 = true := by simpa using he₂
          refine ⟨hep ▸ hene, ?_⟩
          have : e = (p, true) := by
            cases e; simp_all
          exact dictGet_of_mem hnd (this ▸ hed)
        refine ⟨rfl, ?_, ?_, ?_, ?_, hfiles_mem, hdirs_mem, ?_, ?_⟩
        · intro hmem; exact (hfiles_mem target hmem).1 rfl
        · intro hmem; exact (hdirs_mem target hmem).1 rfl
        · rw [← hf]
          exact List.Nodup.sublist (List.Sublist.map Prod.fst
            (List.Sublist.trans (List.filter_sublist _) (List.filter_sublist _))) hnd
        · rw [← hdir]
          exact List.Nodup.sublist (List.Sublist.map Prod.fst
            (List.Sublist.trans (List.filter_sublist _) (List.filter_sublist _))) hnd
        · intro p b hp hpt
          have hpd : (p, b) ∈ d := mem_of_dictGet hp
          have hpr : (p, b) ∈ d.filter (fun e => e.1 ≠ target) :=
            List.mem_filter.2 ⟨hpd, by simpa using hpt⟩
          rcases b with _ | _
          · left
            rw [← hf]
            exact List.mem_map.2 ⟨(p, false),
              List.mem_filter.2 ⟨hpr, by simp⟩, rfl⟩
          · right
            rw [← hdir]
            exact List.mem_map.2 ⟨(p, true),
              List.mem_filter.2 ⟨hpr, by simp⟩, rfl⟩
        · rintro p ⟨hpf, hpd⟩
          have h₁ := (hfiles_mem p hpf).2
          have h₂ := (hdirs_mem p hpd).2
          rw [h₁] at h₂
          exact absurd h₂ (by simp)

theorem claim_C1_witness :
    list_remote_file_or_directory
        [(["r"], true), (["r", "a"], false), (["r", "b"], true)] ["r"]
      = .IsDirectory [["r", "a"]] [["r", "b"]]
    ∧ (["r"] : Path) ∉ ([["r", "a"]] : List Path)
    ∧ (["r"] : Path) ∉ ([["r", "b"]] : List Path) :=
  ⟨rfl,
    ((claim_C1 [(["r"], true), (["r", "a"], false), (["r", "b"], true)]
      ["r"]).2.2 [["r", "a"]] [["r", "b"]] rfl).2.1,
    ((claim_C1 [(["r"], true), (["r", "a"], false), (["r", "b"], true)]
      ["r"]).2.2 [["r", "a"]] [["r", "b"]] rfl).2.2.1⟩

/-! ### The get action planner -/

/-- `SimpleDAVClient.iterate_get_actions`.  The server's depth-1 listing
response for each queried path is supplied by `listingsOf`; `fuel` bounds the
recursion depth, which the Python generator does not bound (the recursion
follows the directory entries the server reports, so an adversarial server
could make it run forever). -/
def iterate_get_actions (listingsOf : Path → List (Path × Bool)) :
    Nat → Path → Path → Except DavErr (List GetAction)
  | 0, _, _ => .error .outOfFuel
  | fuel + 1, remote_path_components, relative_local_path_pre =>
    match list_remote_file_or_directory (listingsOf remote_path_components)
        remote_path_components with
    | .IsFile fp =>
      match fp.getLast? with
      | none => .error .indexOutOfRange
      | some b =>
        .ok [.DownloadRemoteFile fp (relative_local_path_pre ++ [b])]
    | .NotFound => .ok []
    | .IsDirectory files dirs => do
      let newPre : Path :=
        if remote_path_components = [] then relative_local_path_pre
        else relative_local_path_pre ++ [remote_path_components.getLastD ""]
      let selfCreate : List GetAction :=
        if remote_path_components = [] then []
        else [.CreateLocalDirectory newPre]
      let downloads ← files.mapM (fun f =>
        match f.getLast? with
        | none => Except.error DavErr.indexOutOfRange
        | some b => Except.ok (GetAction.DownloadRemoteFile f (newPre ++ [b])))
      let streams ← dirs.mapM (fun d =>
        iterate_get_actions listingsOf fuel d newPre)
      return selfCreate ++ downloads ++ streams.flatten

theorem mapM_download_ok (newPre : Path) (files : List Path)
    (h : ∀ f, f ∈ files → f ≠ []) :
    files.mapM (fun f =>
      match f.getLast? with
      | none => Except.error DavErr.indexOutOfRange
      | some b => Except.ok (GetAction.DownloadRemoteFile f (newPre ++ [b])))
      = Except.ok (files.map (fun f =>
          GetAction.DownloadRemoteFile f (newPre ++ [f.getLastD ""]))) := by
  induction files with
  | nil => rfl
  | cons f fs ih =>
    have hf : f ≠ [] := h f (List.mem_cons_self _ _)
    obtain ⟨b, hb⟩ : ∃ b, f.getLast? = some b := by
      cases hl : f.getLast? with
      | none => exact absurd (List.getLast?_eq_none_iff.1 hl) hf
      | some b => exact ⟨b, rfl⟩
    have hd : f.getLastD "" = b := by
      rw [List.getLastD_eq_getLast?, hb]
      rfl
    rw [List.mapM_cons, ih (fun g hg => h g (List.mem_cons_of_mem _ hg))]
    simp only [hb, hd, List.map_cons]
    rfl

/-- C2: the get planner follows the classification case analysis.  When the
classifier answers `IsFile` it emits exactly one `DownloadRemoteFile` whose
local path extends the local path by the remote basename; when it answers
`NotFound` it emits the empty stream and raises no error; when it answers
`IsDirectory` it first emits `CreateLocalDirectory` for the extended local
path unless the remote path is the root (then no self-create action, and the
local path stays unchanged), then one `DownloadRemoteFile` per immediate
child file, then the recursively planned streams of the immediate child
directories under the extended local path, joined in order.  Recursive
levels use one unit of fuel. -/
theorem claim_C2 (listingsOf : Path → List (Path × Bool)) (fuel : Nat)
    (rpath pre : Path) :
    (∀ fp b,
      list_remote_file_or_directory (listingsOf rpath) rpath = .IsFile fp →
      fp.getLast? = some b →
      iterate_get_actions listingsOf (fuel + 1) rpath pre
        = .ok [.DownloadRemoteFile fp (pre ++ [b])])
    ∧ (list_remote_file_or_directory (listingsOf rpath) rpath = .NotFound →
      iterate_get_actions listingsOf (fuel + 1) rpath pre = .ok [])
    ∧ (∀ files dirs,
      list_remote_file_or_directory (listingsOf rpath) rpath
        = .IsDirectory files dirs →
      (∀ f, f ∈ files → f ≠ []) →
      ∀ streams,
        dirs.mapM (fun d => iterate_get_actions listingsOf fuel d
          (if rpath = [] then pre else pre ++ [rpath.getLastD ""]))
          = .ok streams →
        iterate_get_actions listingsOf (fuel + 1) rpath pre
          = .ok ((if rpath = [] then []
              else [.CreateLocalDirectory (pre ++ [rpath.getLastD ""])])
            ++ files.map (fun f => .DownloadRemoteFile f
              ((if rpath = [] then pre else pre ++ [rpath.getLastD ""])
                ++ [f.getLastD ""]))
            ++ streams.flatten)) := by
  refine ⟨?_, ?_, ?_⟩
  · intro fp b h hb
    simp only [iterate_get_actions, h, hb]
  · intro h
    simp only [iterate_get_actions, h]
  · intro files dirs h hf streams hs
    simp only [iterate_get_actions, h]
    by_cases hr : rpath = []
    · subst hr
      rw [mapM_download_ok _ files hf, hs]
      rfl
    · simp only [if_neg hr] at hs ⊢
      rw [mapM_download_ok _ files hf, hs]
      rfl

def getScenario : Path → List (Path × Bool) := fun p =>
  if p = [] then [([], true), (["a.txt"], false), (["b"], true)]
  else if p = ["b"] then [(["b"], true), (["b", "c.txt"], false)]
  else []

theorem claim_C2_witness :
    list_remote_file_or_directory (getScenario []) []
      = .IsDirectory [["a.txt"]] [["b"]]
    ∧ iterate_get_actions getScenario 2 [] []
      = .ok [.DownloadRemoteFile ["a.txt"] ["a.txt"],
          .CreateLocalDirectory ["b"],
          .DownloadRemoteFile ["b", "c.txt"] ["b", "c.txt"]] := by
  refine ⟨rfl, ?_⟩
  have h := (claim_C2 getScenario 1 [] []).2.2 [["a.txt"]] [["b"]] rfl
    (by decide)
    [[GetAction.CreateLocalDirectory ["b"],
      GetAction.DownloadRemoteFile ["b", "c.txt"] ["b", "c.txt"]]] rfl
  exact h.trans rfl

/-! ### The put action planner -/

/-- A node of the local filesystem tree: a regular file, a directory with
its ordered entry list, or anything that is neither (dangling symlink,
device, ...).  `os.path.isfile` and `os.path.isdir` of the source become the
`file` and `dir` cases; `os.walk` splits the entries of a visited directory
into its directory entries and all remaining entries. -/
inductive FSNode where
  | file
  | dir (entries : List (String × FSNode))
  | other

/-- The actions the loop body of `iterate_put_actions` yields for one
directory visited by `os.walk`: one `CreateRemoteDirectory` per directory
entry, then one `UploadLocalFile` per non-directory entry. -/
def walk_level_actions (absDir preDir : Path)
    (es : List (String × FSNode)) : List PutAction :=
  es.filterMap (fun e =>
    match e.2 with
    | FSNode.dir _ => some (PutAction.CreateRemoteDirectory (preDir ++ [e.1]))
    | _ => none)
  ++ es.filterMap (fun e =>
    match e.2 with
    | FSNode.dir _ => none
    | _ => some (PutAction.UploadLocalFile (absDir ++ [e.1]) (preDir ++ [e.1])))

/-- The actions yielded while `os.walk` descends below one visited
directory: each directory entry contributes its own level followed by its
own descent, in entry order (top-down, depth-first). -/
def walk_sub_actions : Path → Path → List (String × FSNode) → List PutAction
  | _, _, [] => []
  | absDir, preDir, (n, FSNode.dir es₂) :: rest =>
    (walk_level_actions (absDir ++ [n]) (preDir ++ [n]) es₂
      ++ walk_sub_actions (absDir ++ [n]) (preDir ++ [n]) es₂)
    ++ walk_sub_actions absDir preDir rest
  | absDir, preDir, (_, FSNode.file) :: rest =>
    walk_sub_actions absDir preDir rest
  | absDir, preDir, (_, FSNode.other) :: rest =>
    walk_sub_actions absDir preDir rest

/-- All actions the `os.walk` loop of `iterate_put_actions` yields for a
directory with entry list `es`. -/
def walk_actions (absDir preDir : Path) (es : List (String × FSNode)) :
    List PutAction :=
  walk_level_actions absDir preDir es ++ walk_sub_actions absDir preDir es

/-- `iterate_put_actions`.  `abs_local` is the component sequence of
`os.path.abspath(local_path)`, whose basename is its last component (empty
exactly for the filesystem root), and `node` is what the local filesystem
holds at that path. -/
def iterate_put_actions (abs_local : Path) (node : FSNode)
    (relative_remote_path_pre : Path) : Except DavErr (List PutAction) :=
  if abs_local.getLastD "" = "" then .error .unsupportedPath
  else
    match node with
    | FSNode.file =>
      .ok [.UploadLocalFile abs_local
        (relative_remote_path_pre ++ [abs_local.getLastD ""])]
    | FSNode.dir es =>
      .ok (.CreateRemoteDirectory
          (relative_remote_path_pre ++ [abs_local.getLastD ""])
        :: walk_actions abs_local
          (relative_remote_path_pre ++ [abs_local.getLastD ""]) es)
    | FSNode.other => .error .unsupportedPath

/-- The remote path an emitted put action addresses. -/
def putActionPath : PutAction → Path
  | .UploadLocalFile _ r => r
  | .CreateRemoteDirectory r => r

theorem mem_walk_level_actions_path {absDir preDir : Path}
    {es : List (String × FSNode)} {a : PutAction}
    (h : a ∈ walk_level_actions absDir preDir es) :
    ∃ n, putActionPath a = preDir ++ [n] := by
  rcases List.mem_append.1 h with h | h <;>
    rcases List.mem_filterMap.1 h with ⟨⟨n, node⟩, he, hfe⟩
  · cases node with
    | dir es₂ =>
      have ha := Option.some.inj hfe
      exact ⟨n, by rw [← ha]; rfl⟩
    | file => simp at hfe
    | other => simp at hfe
  · cases node with
    | dir es₂ => simp at hfe
    | file =>
      have ha := Option.some.inj hfe
      exact ⟨n, by rw [← ha]; rfl⟩
    | other =>
      have ha := Option.some.inj hfe
      exact ⟨n, by rw [← ha]; rfl⟩

theorem mem_walk_sub_actions_path :
    ∀ (absDir preDir : Path) (es : List (String × FSNode)) (a : PutAction),
    a ∈ walk_sub_actions absDir preDir es →
    ∃ q, q ≠ [] ∧ putActionPath a = preDir ++ q := by
  intro absDir preDir es
  induction absDir, preDir, es using walk_sub_actions.induct with
  | case1 _ _ => intro a h; simp [walk_sub_actions] at h
  | case2 absDir preDir n es₂ rest ih₁ ih₂ =>
    intro a h
    rw [walk_sub_actions] at h
    rcases List.mem_append.1 h with h | h
    · rcases List.mem_append.1 h with h | h
      · rcases mem_walk_level_actions_path h with ⟨m, hm⟩
        exact ⟨[n, m], by simp, by simpa using hm⟩
      · rcases ih₁ a h with ⟨q, hq, hqa⟩
        exact ⟨n :: q, by simp, by simpa using hqa⟩
    · exact ih₂ a h
  | case3 absDir preDir n rest ih =>
    intro a h
    rw [walk_sub_actions] at h
    exact ih a h
  | case4 absDir preDir n rest ih =>
    intro a h
    rw [walk_sub_actions] at h
    exact ih a h

theorem mem_walk_actions_path {absDir preDir : Path}
    {es : List (String × FSNode)} {a : PutAction}
    (h : a ∈ walk_actions absDir preDir es) :
    ∃ q, q ≠ [] ∧ putActionPath a = preDir ++ q := by
  rcases List.mem_append.1 h with h | h
  · rcases mem_walk_level_actions_path h with ⟨n, hn⟩
    exact ⟨[n], by simp, hn⟩
  · exact mem_walk_sub_actions_path _ _ _ _ h

theorem split_append_cases {α : Type} {x y l₁ l₂ : List α} {a : α}
    (h : x ++ y = l₁ ++ a :: l₂) :
    (∃ x₂, x = l₁ ++ a :: x₂) ∨ (∃ y₁, y = y₁ ++ a :: l₂ ∧ l₁ = x ++ y₁) := by
  rcases (List.append_eq_append_iff.1 h) with ⟨u, hu₁, hu₂⟩ | ⟨c, hc₁, hc₂⟩
  · exact Or.inr ⟨u, hu₂, hu₁⟩
  · cases c with
    | nil =>
      rw [List.append_nil] at hc₁
      rw [List.nil_append] at hc₂
      exact Or.inr ⟨[], by rw [List.nil_append, hc₂], by rw [hc₁, List.append_nil]⟩
    | cons c₀ cs =>
      rcases List.cons_eq_cons.1 hc₂.symm with ⟨hca, hcs⟩
      exact Or.inl ⟨cs, by rw [hc₁, hca]⟩

theorem prefix_snoc_of_between {P p : Path} {n : String} {r : Path}
    (h₁ : P <+: p) (h₂ : p <+: P ++ n :: r) (h₃ : p ≠ P) :
    (P ++ [n]) <+: p := by
  obtain ⟨u, hu⟩ := h₁
  have hur : u <+: n :: r := by
    rw [← hu] at h₂
    exact (List.prefix_append_right_inj P).1 h₂
  cases u with
  | nil => exact absurd (by rw [← hu, List.append_nil]) h₃
  | cons u₀ us =>
    rcases List.cons_prefix_cons.1 hur with ⟨h₀, _⟩
    rw [← hu, h₀]
    exact ⟨us, by simp⟩

theorem prefix_antisymm {p q : Path} (h₁ : p <+: q) (h₂ : q <+: p) : p = q := by
  obtain ⟨u, hu⟩ := h₁
  obtain ⟨v, hv⟩ := h₂
  rw [← hu, List.append_assoc] at hv
  have : u ++ v = [] := by
    have := List.append_right_injective p
    have h0 : p ++ (u ++ v) = p ++ [] := by rw [List.append_nil]; exact hv
    exact List.append_cancel_left h0
  rw [← hu, List.append_eq_nil.1 this |>.1, List.append_nil]

theorem mem_walk_level_actions_mono {absDir preDir : Path}
    {e : String × FSNode} {es : List (String × FSNode)} {a : PutAction}
    (h : a ∈ walk_level_actions absDir preDir es) :
    a ∈ walk_level_actions absDir preDir (e :: es) := by
  unfold walk_level_actions at h ⊢
  rcases List.mem_append.1 h with h | h
  · refine List.mem_append.2 (Or.inl ?_)
    rw [List.filterMap_cons]
    split
    · exact h
    · exact List.mem_cons_of_mem _ h
  · refine List.mem_append.2 (Or.inr ?_)
    rw [List.filterMap_cons]
    split
    · exact h
    · exact List.mem_cons_of_mem _ h

theorem create_mem_walk_level_actions {absDir preDir : Path} {n : String}
    {es₂ : List (String × FSNode)} {rest : List (String × FSNode)} :
    PutAction.CreateRemoteDirectory (preDir ++ [n])
      ∈ walk_level_actions absDir preDir ((n, FSNode.dir es₂) :: rest) := by
  unfold walk_level_actions
  refine List.mem_append.2 (Or.inl ?_)
  rw [List.filterMap_cons]
  exact List.mem_cons_self _ _

/-- Any action emitted strictly below a directory is preceded, inside the
walk of that directory, by the creation action of every strictly closer
enclosing directory. -/
theorem walk_actions_prec :
    ∀ (absDir preDir : Path) (es : List (String × FSNode)),
    ∀ (l₁ : List PutAction) (a : PutAction) (l₂ : List PutAction),
    walk_actions absDir preDir es = l₁ ++ a :: l₂ →
    ∀ p : Path, preDir <+: p → p ≠ preDir → p <+: putActionPath a →
      p ≠ putActionPath a → PutAction.CreateRemoteDirectory p ∈ l₁ := by
  intro absDir preDir es
  induction absDir, preDir, es using walk_sub_actions.induct with
  | case1 absDir preDir =>
    intro l₁ a l₂ h p _ _ _ _
    rw [walk_actions, walk_sub_actions] at h
    simp [walk_level_actions] at h
  | case2 absDir preDir n es₂ rest ih₁ ih₂ =>
    intro l₁ a l₂ h p hPp hpP hpa hpa₂
    have hfull : walk_actions absDir preDir ((n, FSNode.dir es₂) :: rest)
        = walk_level_actions absDir preDir ((n, FSNode.dir es₂) :: rest)
          ++ (walk_actions (absDir ++ [n]) (preDir ++ [n]) es₂
            ++ walk_sub_actions absDir preDir rest) := by
      rw [walk_actions, walk_sub_actions, walk_actions]
    rw [hfull] at h
    rcases split_append_cases h with ⟨x₂, hx⟩ | ⟨y₁, hy, hl₁⟩
    · -- `a` is a level action: its path extends `preDir` by one component,
      -- so no path can lie strictly between.
      have ha : a ∈ walk_level_actions absDir preDir ((n, FSNode.dir es₂) :: rest) := by
        rw [hx]
        exact List.mem_append.2 (Or.inr (List.mem_cons_self _ _))
      rcases mem_walk_level_actions_path ha with ⟨m, hm⟩
      rw [hm] at hpa hpa₂
      have := prefix_snoc_of_between hPp hpa hpP
      exact absurd (prefix_antisymm hpa this) hpa₂
    · rcases split_append_cases hy with ⟨c₂, hc⟩ | ⟨z₁, hz, hy₁⟩
      · -- `a` lies in the walk of the entry `n`.
        have ha : a ∈ walk_actions (absDir ++ [n]) (preDir ++ [n]) es₂ := by
          rw [hc]
          exact List.mem_append.2 (Or.inr (List.mem_cons_self _ _))
        rcases mem_walk_actions_path ha with ⟨q, hq, hqa⟩
        have hstep : (preDir ++ [n]) <+: p := by
          rw [hqa] at hpa
          cases q with
          | nil => exact absurd rfl hq
          | cons q₀ qs =>
            have hshape : preDir ++ [n] ++ (q₀ :: qs) = preDir ++ n :: q₀ :: qs := by
              simp
            rw [hshape] at hpa
            exact prefix_snoc_of_between hPp hpa hpP
        by_cases hpn : p = preDir ++ [n]
        · rw [hl₁]
          refine List.mem_append.2 (Or.inl ?_)
          rw [hpn]
          exact create_mem_walk_level_actions
        · have := ih₁ _ _ _ hc p hstep hpn hpa hpa₂
          rw [hl₁]
          exact List.mem_append.2 (Or.inr this)
      · -- `a` lies in the walk below a later entry.
        have hrest : walk_actions absDir preDir rest
            = (walk_level_actions absDir preDir rest ++ z₁) ++ a :: l₂ := by
          rw [walk_actions, hz, List.append_assoc]
        have hin := ih₂ _ _ _ hrest p hPp hpP hpa hpa₂
        rw [hl₁, hy₁]
        rcases List.mem_append.1 hin with hin | hin
        · exact List.mem_append.2 (Or.inl (mem_walk_level_actions_mono hin))
        · exact List.mem_append.2 (Or.inr (List.mem_append.2 (Or.inr hin)))
  | case3 absDir preDir n rest ih =>
    intro l₁ a l₂ h p hPp hpP hpa hpa₂
    have hfull : walk_actions absDir preDir ((n, FSNode.file) :: rest)
        = walk_level_actions absDir preDir ((n, FSNode.file) :: rest)
          ++ walk_sub_actions absDir preDir rest := by
      rw [walk_actions, walk_sub_actions]
    rw [hfull] at h
    rcases split_append_cases h with ⟨x₂, hx⟩ | ⟨y₁, hy, hl₁⟩
    · have ha : a ∈ walk_level_actions absDir preDir ((n, FSNode.file) :: rest) := by
        rw [hx]
        exact List.mem_append.2 (Or.inr (List.mem_cons_self _ _))
      rcases mem_walk_level_actions_path ha with ⟨m, hm⟩
      rw [hm] at hpa hpa₂
      have := prefix_snoc_of_between hPp hpa hpP
      exact absurd (prefix_antisymm hpa this) hpa₂
    · have hrest : walk_actions absDir preDir rest
          = (walk_level_actions absDir preDir rest ++ y₁) ++ a :: l₂ := by
        rw [walk_actions, hy, List.append_assoc]
      have hin := ih _ _ _ hrest p hPp hpP hpa hpa₂
      rw [hl₁]
      rcases List.mem_append.1 hin with hin | hin
      · exact List.mem_append.2 (Or.inl (mem_walk_level_actions_mono hin))
      · exact List.mem_append.2 (Or.inr hin)
  | case4 absDir preDir n rest ih =>
    intro l₁ a l₂ h p hPp hpP hpa hpa₂
    have hfull : walk_actions absDir preDir ((n, FSNode.other) :: rest)
        = walk_level_actions absDir preDir ((n, FSNode.other) :: rest)
          ++ walk_sub_actions absDir preDir rest := by
      rw [walk_actions, walk_sub_actions]
    rw [hfull] at h
    rcases split_append_cases h with ⟨x₂, hx⟩ | ⟨y₁, hy, hl₁⟩
    · have ha : a ∈ walk_level_actions absDir preDir ((n, FSNode.other) :: rest) := by
        rw [hx]
        exact List.mem_append.2 (Or.inr (List.mem_cons_self _ _))
      rcases mem_walk_level_actions_path ha with ⟨m, hm⟩
      rw [hm] at hpa hpa₂
      have := prefix_snoc_of_between hPp hpa hpP
      exact absurd (prefix_antisymm hpa this) hpa₂
    · have hrest : walk_actions absDir preDir rest
          = (walk_level_actions absDir preDir rest ++ y₁) ++ a :: l₂ := by
        rw [walk_actions, hy, List.append_assoc]
      have hin := ih _ _ _ hrest p hPp hpP hpa hpa₂
      rw [hl₁]
      rcases List.mem_append.1 hin with hin | hin
      · exact List.mem_append.2 (Or.inl (mem_walk_level_actions_mono hin))
      · exact List.mem_append.2 (Or.inr hin)

/-- C3: for a regular file the put planner emits exactly one
`UploadLocalFile` at the remote path extended with the file's basename; for
a directory it emits `CreateRemoteDirectory` for that extended path first,
followed by the `os.walk` stream in which each visited level's directory
creations and file uploads precede the descent, so that in the emitted
sequence the creation of any directory strictly precedes every action whose
path lies strictly inside that directory. -/
theorem claim_C3 (abs_local relative_remote_path_pre : Path) (node : FSNode)
    (hb : abs_local.getLastD "" ≠ "") :
    (node = FSNode.file →
      iterate_put_actions abs_local node relative_remote_path_pre
        = .ok [.UploadLocalFile abs_local
            (relative_remote_path_pre ++ [abs_local.getLastD ""])])
    ∧ (∀ es, node = FSNode.dir es →
      iterate_put_actions abs_local node relative_remote_path_pre
        = .ok (.CreateRemoteDirectory
              (relative_remote_path_pre ++ [abs_local.getLastD ""])
            :: walk_actions abs_local
              (relative_remote_path_pre ++ [abs_local.getLastD ""]) es)
      ∧ ∀ acts, iterate_put_actions abs_local node relative_remote_path_pre
            = .ok acts →
          ∀ l₁ a l₂ p, acts = l₁ ++ a :: l₂ →
            PutAction.CreateRemoteDirectory p ∈ acts →
            p <+: putActionPath a → p ≠ putActionPath a →
            PutAction.CreateRemoteDirectory p ∈ l₁) := by
  constructor
  · intro hn
    subst hn
    rw [iterate_put_actions, if_neg hb]
  · intro es hn
    subst hn
    have heq : iterate_put_actions abs_local (FSNode.dir es)
        relative_remote_path_pre
        = .ok (.CreateRemoteDirectory
            (relative_remote_path_pre ++ [abs_local.getLastD ""])
          :: walk_actions abs_local
            (relative_remote_path_pre ++ [abs_local.getLastD ""]) es) := by
      rw [iterate_put_actions, if_neg hb]
    refine ⟨heq, ?_⟩
    intro acts hacts l₁ a l₂ p hsplit hcr hppre hpne
    rw [heq] at hacts
    have hacts' := Except.ok.inj hacts
    set base := relative_remote_path_pre ++ [abs_local.getLastD ""] with hbase
    -- every creation action in the stream addresses `base` or deeper
    have hbase_le : ∀ r, PutAction.CreateRemoteDirectory r ∈ acts → base <+: r := by
      intro r hr
      rw [← hacts'] at hr
      rcases List.mem_cons.1 hr with hr | hr
      · rw [(PutAction.CreateRemoteDirectory.inj hr.symm)]
      · rcases mem_walk_actions_path hr with ⟨q, _, hq⟩
        exact ⟨q, hq.symm⟩
    have hbp : base <+: p := hbase_le p hcr
    rw [← hacts'] at hsplit
    cases l₁ with
    | nil =>
      have ha : a = PutAction.CreateRemoteDirectory base := by
        have := List.cons_eq_cons.1 hsplit.symm
        exact this.1
      rw [ha] at hppre hpne
      exact absurd (prefix_antisymm hppre hbp) hpne
    | cons c l₁t =>
      rcases List.cons_eq_cons.1 hsplit.symm with ⟨hc, hw⟩
      by_cases hpb : p = base
      · rw [hpb, hc]
        exact List.mem_cons_self _ _
      · have := walk_actions_prec abs_local base es l₁t a l₂ hw.symm p hbp hpb
          hppre hpne
        exact List.mem_cons_of_mem _ this

theorem claim_C3_witness :
    (["home", "u", "a"] : Path).getLastD "" ≠ ""
    ∧ iterate_put_actions ["home", "u", "a"]
        (FSNode.dir [("sub", FSNode.dir []), ("f.txt", FSNode.file)]) ["dest"]
      = .ok [.CreateRemoteDirectory ["dest", "a"],
          .CreateRemoteDirectory ["dest", "a", "sub"],
          .UploadLocalFile ["home", "u", "a", "f.txt"] ["dest", "a", "f.txt"]] := by
  refine ⟨by decide, ?_⟩
  have h := ((claim_C3 ["home", "u", "a"] ["dest"]
    (FSNode.dir [("sub", FSNode.dir []), ("f.txt", FSNode.file)])
    (by decide)).2 [("sub", FSNode.dir []), ("f.txt", FSNode.file)] rfl).1
  rw [h]
  simp [walk_actions, walk_level_actions, walk_sub_actions]

/-- C8 fails as stated: the planner also raises for a path that is an
existing directory whose absolute form has an empty basename (the
filesystem root), so the error is not raised only for paths that are
neither regular file nor directory. -/
theorem claim_C8_counterexample :
    iterate_put_actions ([] : Path) (FSNode.dir []) ([] : Path)
      = .error .unsupportedPath := rfl

/-- C8 (amended): the put planner fails with the unsupported-path error
exactly when the local path is neither a regular file nor a directory, or
when its absolute form has an empty basename. -/
theorem claim_C8_amended (abs_local relative_remote_path_pre : Path)
    (node : FSNode) :
    iterate_put_actions abs_local node relative_remote_path_pre
        = .error .unsupportedPath
      ↔ (node = FSNode.other ∨ abs_local.getLastD "" = "") := by
  by_cases hbas : abs_local.getLastD "" = ""
  · rw [iterate_put_actions.eq_def, if_pos hbas]
    rw [List.getLastD_eq_getLast?] at hbas
    simp [hbas]
  · cases node with
    | file =>
      rw [iterate_put_actions.eq_def, if_neg hbas]
      rw [List.getLastD_eq_getLast?] at hbas
      simp [hbas]
    | dir es =>
      rw [iterate_put_actions.eq_def, if_neg hbas]
      rw [List.getLastD_eq_getLast?] at hbas
      simp [hbas]
    | other =>
      rw [iterate_put_actions.eq_def, if_neg hbas]
      rw [List.getLastD_eq_getLast?] at hbas
      simp [hbas]

/-- C9: a local path whose absolute form has an empty basename is rejected
with the unsupported-path error even when it is an existing directory, and
every action the planner ever emits addresses a path that extends the given
remote path by at least one non-empty component. -/
theorem claim_C9 (abs_local relative_remote_path_pre : Path) (node : FSNode) :
    (abs_local.getLastD "" = "" →
      iterate_put_actions abs_local node relative_remote_path_pre
        = .error .unsupportedPath)
    ∧ (∀ acts, iterate_put_actions abs_local node relative_remote_path_pre
          = .ok acts →
        ∀ a, a ∈ acts → ∃ b t, putActionPath a
            = relative_remote_path_pre ++ b :: t ∧ b ≠ "") := by
  constructor
  · intro hbas
    rw [iterate_put_actions.eq_def, if_pos hbas]
  · intro acts hacts a ha
    by_cases hbas : abs_local.getLastD "" = ""
    · rw [iterate_put_actions.eq_def, if_pos hbas] at hacts
      exact absurd hacts (by simp)
    · rw [iterate_put_actions.eq_def, if_neg hbas] at hacts
      cases node with
      | file =>
        have hacts' := Except.ok.inj hacts
        rw [← hacts'] at ha
        rcases List.mem_singleton.1 ha with rfl
        exact ⟨abs_local.getLastD "", [], by rw [putActionPath], hbas⟩
      | dir es =>
        have hacts' := Except.ok.inj hacts
        rw [← hacts'] at ha
        rcases List.mem_cons.1 ha with rfl | ha
        · exact ⟨abs_local.getLastD "", [], by rw [putActionPath], hbas⟩
        · rcases mem_walk_actions_path ha with ⟨q, _, hq⟩
          refine ⟨abs_local.getLastD "", q, ?_, hbas⟩
          rw [hq, List.append_assoc]
          rfl
      | other => exact absurd hacts (by simp)

theorem claim_C9_witness :
    iterate_put_actions ["x"] FSNode.file ["d"]
      = .ok [.UploadLocalFile ["x"] ["d", "x"]]
    ∧ ∀ a, a ∈ [PutAction.UploadLocalFile ["x"] ["d", "x"]] →
        ∃ b t, putActionPath a = ["d"] ++ b :: t ∧ b ≠ "" :=
  ⟨rfl, (claim_C9 ["x"] ["d"] FSNode.file).2 _ rfl⟩

/-! ### The directory creation planner -/

/-- `SimpleDAVClient.create_directories_from_remote_path_components`.  The
transport call `create_directory_from_remote_path_components` (one MKCOL
creation request) is the stateful oracle `t`; besides the boolean result
and the final transport state, the embedding returns the list of the paths
of all creation requests issued, in order. -/
def create_directories_from_remote_path_components {σ : Type}
    (t : σ → Path → Bool × σ) (s : σ) (p : Path) :
    Bool × σ × List Path :=
  if hp : p = [] then (true, s, [])
  else
    let r₁ := t s p
    if r₁.1 then (true, r₁.2, [p])
    else
      let r₂ := create_directories_from_remote_path_components t r₁.2 p.dropLast
      if r₂.1 then
        let r₃ := t r₂.2.1 p
        (r₃.1, r₃.2, p :: r₂.2.2 ++ [p])
      else (false, r₂.2.1, p :: r₂.2.2)
termination_by p.length
decreasing_by
  simp only [List.length_dropLast]
  have := List.length_pos.2 hp
  omega

theorem create_directories_nil {σ : Type} (t : σ → Path → Bool × σ) (s : σ) :
    create_directories_from_remote_path_components t s [] = (true, s, []) := by
  rw [create_directories_from_remote_path_components]
  simp

theorem create_directories_cons {σ : Type} (t : σ → Path → Bool × σ) (s : σ)
    (p : Path) (hp : p ≠ []) :
    create_directories_from_remote_path_components t s p
      = (let r₁ := t s p
         if r₁.1 then (true, r₁.2, [p])
         else
           let r₂ := create_directories_from_remote_path_components t r₁.2
             p.dropLast
           if r₂.1 then
             let r₃ := t r₂.2.1 p
             (r₃.1, r₃.2, p :: r₂.2.2 ++ [p])
           else (false, r₂.2.1, p :: r₂.2.2)) := by
  rw [create_directories_from_remote_path_components]
  rw [dif_neg hp]

/-- `create_directories_from_remote_path_components` with an explicit bound
on the recursion depth; `none` means the bound was hit. -/
def create_directories_fuel {σ : Type} (t : σ → Path → Bool × σ) :
    Nat → σ → Path → Option (Bool × σ × List Path)
  | 0, _, _ => none
  | fuel + 1, s, p =>
    if p = [] then some (true, s, [])
    else
      let r₁ := t s p
      if r₁.1 then some (true, r₁.2, [p])
      else
        match create_directories_fuel t fuel r₁.2 p.dropLast with
        | none => none
        | some (true, s₂, tr) =>
          let r₃ := t s₂ p
          some (r₃.1, r₃.2, p :: tr ++ [p])
        | some (false, s₂, tr) => some (false, s₂, p :: tr)

theorem create_directories_fuel_spec {σ : Type} (t : σ → Path → Bool × σ) :
    ∀ (n : Nat) (p : Path), p.length ≤ n → ∀ s : σ,
    create_directories_fuel t (n + 1) s p
      = some (create_directories_from_remote_path_components t s p) := by
  intro n
  induction n with
  | zero =>
    intro p hp s
    have hp0 : p = [] := List.length_eq_zero.1 (Nat.le_zero.1 hp)
    subst hp0
    rw [create_directories_fuel, if_pos rfl, create_directories_nil]
  | succ n ih =>
    intro p hp s
    by_cases hp0 : p = []
    · subst hp0
      rw [create_directories_fuel, if_pos rfl, create_directories_nil]
    · rw [create_directories_fuel, if_neg hp0, create_directories_cons t s p hp0]
      by_cases hb : (t s p).1 = true
      · simp only [hb, if_true]
      · have hlen : p.dropLast.length ≤ n := by
          rw [List.length_dropLast]
          have := List.length_pos.2 hp0
          omega
        rw [Bool.not_eq_true] at hb
        simp only [hb, Bool.false_eq_true, if_false]
        rw [ih p.dropLast hlen (t s p).2]
        rcases hG : create_directories_from_remote_path_components t (t s p).2
          p.dropLast with ⟨b₂, s₂, tr⟩
        cases b₂ <;> simp

/-- C10: for every finite component sequence, every transport, every
transport state and hence every sequence of boolean outcomes the transport
may return, the recursive directory-creation planner terminates: a recursion
budget of one more than the number of path components always suffices, and
the fuel-bounded run agrees with the total function (every recursive call
drops the last component and the empty path is a base case). -/
theorem claim_C10 {σ : Type} (t : σ → Path → Bool × σ) (s : σ) (p : Path) :
    create_directories_fuel t (p.length + 1) s p
      = some (create_directories_from_remote_path_components t s p) :=
  create_directories_fuel_spec t p.length p (Nat.le_refl _) s

/-- Modelled from the spec: the server side of the single-level
collection-create request (spec sections 4.3 and 6) is not part of the
repository.  Its state is the list of directories existing besides the
always-existing root; a creation request succeeds (status 201) exactly when
the parent exists and the target does not yet, and then adds the target. -/
def mkcol (fs : List Path) (p : Path) : Bool × List Path :=
  if p ≠ [] ∧ (p.dropLast = [] ∨ p.dropLast ∈ fs) ∧ p ∉ fs then (true, p :: fs)
  else (false, fs)

theorem ensure_trace_spec :
    ∀ (m : Nat) (p : Path) (fs : List Path) (k : Nat),
    p.length - k = m → k < p.length →
    (p.take k = [] ∨ p.take k ∈ fs) →
    (∀ j, k < j → j ≤ p.length → p.take j ∉ fs) →
    ∃ ext : List Path,
      (create_directories_from_remote_path_components mkcol fs p).1 = true
      ∧ (create_directories_from_remote_path_components mkcol fs p).2.1
          = ext ++ fs
      ∧ p ∈ ext
      ∧ (∀ q, q ∈ ext → ∃ j, k < j ∧ j ≤ p.length ∧ q = p.take j)
      ∧ (create_directories_from_remote_path_components mkcol fs p).2.2.length
          = 2 * m - 1 := by
  intro m
  induction m with
  | zero =>
    intro p fs k hm hk _ _
    omega
  | succ m ih =>
    intro p fs k hm hk h₁ h₂
    have hp : p ≠ [] := by
      intro h
      rw [h] at hk
      simp at hk
    have hlp : 0 < p.length := List.length_pos.2 hp
    have hdrop : p.dropLast = p.take (p.length - 1) := List.dropLast_eq_take p
    cases m with
    | zero =>
      -- only the final level is missing: the optimistic request succeeds
      have hkd : k = p.length - 1 := by omega
      have hmk : mkcol fs p = (true, p :: fs) := by
        rw [mkcol, if_pos]
        refine ⟨hp, ?_, ?_⟩
        · rw [hdrop, ← hkd]
          exact h₁
        · have := h₂ p.length hk (Nat.le_refl _)
          rwa [List.take_length] at this
      rw [create_directories_cons mkcol fs p hp]
      simp only [hmk]
      exact ⟨[p], rfl, rfl, List.mem_singleton.2 rfl,
        fun q hq => ⟨p.length, hk, Nat.le_refl _, by
          rw [List.mem_singleton.1 hq, List.take_length]⟩, rfl⟩
    | succ m' =>
      -- at least two levels missing: the optimistic request fails
      have hparent : p.dropLast ∉ fs := by
        rw [hdrop]
        exact h₂ (p.length - 1) (by omega) (by omega)
      have hmk : mkcol fs p = (false, fs) := by
        rw [mkcol, if_neg]
        intro hcond
        rcases hcond.2.1 with hnil | hmem
        · have : p.dropLast.length = 0 := by rw [hnil]; rfl
          rw [List.length_dropLast] at this
          omega
        · exact hparent hmem
      have htake : ∀ j, j ≤ p.length - 1 → p.dropLast.take j = p.take j := by
        intro j hj
        rw [hdrop, List.take_take, Nat.min_eq_left hj]
      have hrec := ih p.dropLast fs k
        (by rw [List.length_dropLast]; omega)
        (by rw [List.length_dropLast]; omega)
        (by rwa [htake k (by omega)])
        (by
          intro j hj₁ hj₂
          rw [List.length_dropLast] at hj₂
          rw [htake j hj₂]
          exact h₂ j hj₁ (by omega))
      rcases hrec with ⟨ext, hb, hs, hmem, hchar, htr⟩
      rcases hG : create_directories_from_remote_path_components mkcol fs
        p.dropLast with ⟨b₂, s₂, tr⟩
      rw [hG] at hb hs htr
      simp only at hb hs htr
      subst hb
      have hretry : mkcol s₂ p = (true, p :: s₂) := by
        rw [mkcol, if_pos]
        refine ⟨hp, Or.inr ?_, ?_⟩
        · rw [hs]
          exact List.mem_append.2 (Or.inl hmem)
        · rw [hs]
          intro hmem₂
          rcases List.mem_append.1 hmem₂ with hmem₂ | hmem₂
          · rcases hchar p hmem₂ with ⟨j, hj₁, hj₂, hj₃⟩
            have : p.length = j := by
              have hlen := congrArg List.length hj₃
              rw [List.length_take] at hlen
              rw [List.length_dropLast] at hj₂
              omega
            rw [List.length_dropLast] at hj₂
            omega
          · have := h₂ p.length hk (Nat.le_refl _)
            rw [List.take_length] at this
            exact this hmem₂
      have hfinal : create_directories_from_remote_path_components mkcol fs p
          = (true, p :: s₂, p :: tr ++ [p]) := by
        rw [create_directories_cons mkcol fs p hp]
        simp [hmk, hG, hretry]
      rw [hfinal]
      refine ⟨p :: ext, rfl, ?_, List.mem_cons_self _ _, ?_, ?_⟩
      · show p :: s₂ = p :: ext ++ fs
        rw [hs, List.cons_append]
      · intro q hq
        rcases List.mem_cons.1 hq with hq₀ | hq
        · exact ⟨p.length, hk, Nat.le_refl _, by rw [hq₀, List.take_length]⟩
        · rcases hchar q hq with ⟨j, hj₁, hj₂, hj₃⟩
          rw [List.length_dropLast] at hj₂
          exact ⟨j, hj₁, by omega, by rw [hj₃, htake j hj₂]⟩
      · show (p :: tr ++ [p]).length = 2 * (m' + 1 + 1) - 1
        simp only [List.length_cons, List.length_append, List.length_nil, htr]
        omega

/-- C4 fails as stated on the request count: on a path whose immediate
parent already exists but whose final segment does not, the optimistic
full-depth attempt already succeeds, so exactly one creation request is
issued, not two. -/
theorem claim_C4_counterexample :
    (create_directories_from_remote_path_components mkcol [["a"]]
        ["a", "b"]).2.2 = [["a", "b"]]
    ∧ ¬((create_directories_from_remote_path_components mkcol [["a"]]
        ["a", "b"]).2.2.length = 2) := by
  have hmk : mkcol [["a"]] ["a", "b"] = (true, [["a", "b"], ["a"]]) := by decide
  have h : create_directories_from_remote_path_components mkcol [["a"]]
      ["a", "b"] = (true, [["a", "b"], ["a"]], [["a", "b"]]) := by
    rw [create_directories_cons mkcol _ _ (by decide)]
    simp [hmk]
  rw [h]
  exact ⟨rfl, by decide⟩

/-- C4 (amended): the planner returns true on the empty (root) path without
issuing any request; on a non-empty path it attempts one direct creation at
full depth, returns true with that single request on success, otherwise
recursively ensures the path without its last segment and, when that
succeeds, retries the direct creation once and returns that result, and
returns false when the parent-ensure fails.  Against the collection-create
semantics, when the deepest existing ancestor is `k` components deep on a
path of `n` components (so `n - k` trailing levels are missing), it issues
`2 * (n - k) - 1` creation requests and succeeds: one request when only the
final segment is missing, not two as claimed. -/
theorem claim_C4_amended :
    (∀ (σ : Type) (t : σ → Path → Bool × σ) (s : σ),
      create_directories_from_remote_path_components t s [] = (true, s, []))
    ∧ (∀ (σ : Type) (t : σ → Path → Bool × σ) (s : σ) (p : Path), p ≠ [] →
      ((t s p).1 = true →
        create_directories_from_remote_path_components t s p
          = (true, (t s p).2, [p]))
      ∧ ((t s p).1 = false →
        (create_directories_from_remote_path_components t (t s p).2
            p.dropLast).1 = true →
        create_directories_from_remote_path_components t s p
          = ((t (create_directories_from_remote_path_components t (t s p).2
                p.dropLast).2.1 p).1,
             (t (create_directories_from_remote_path_components t (t s p).2
                p.dropLast).2.1 p).2,
             p :: (create_directories_from_remote_path_components t (t s p).2
                p.dropLast).2.2 ++ [p]))
      ∧ ((t s p).1 = false →
        (create_directories_from_remote_path_components t (t s p).2
            p.dropLast).1 = false →
        create_directories_from_remote_path_components t s p
          = (false,
             (create_directories_from_remote_path_components t (t s p).2
                p.dropLast).2.1,
             p :: (create_directories_from_remote_path_components t (t s p).2
                p.dropLast).2.2)))
    ∧ (∀ (fs : List Path) (p : Path) (k : Nat), k < p.length →
      (p.take k = [] ∨ p.take k ∈ fs) →
      (∀ j, k < j → j ≤ p.length → p.take j ∉ fs) →
      (create_directories_from_remote_path_components mkcol fs p).1 = true
      ∧ (create_directories_from_remote_path_components mkcol fs
          p).2.2.length = 2 * (p.length - k) - 1) := by
  refine ⟨fun σ t s => create_directories_nil t s, ?_, ?_⟩
  · intro σ t s p hp
    refine ⟨?_, ?_, ?_⟩
    · intro h₁
      rw [create_directories_cons t s p hp]
      simp [h₁]
    · intro h₁ h₂
      rw [create_directories_cons t s p hp]
      simp [h₁, h₂]
    · intro h₁ h₂
      rw [create_directories_cons t s p hp]
      simp [h₁, h₂]
  · intro fs p k hk h₁ h₂
    rcases ensure_trace_spec (p.length - k) p fs k rfl hk h₁ h₂ with
      ⟨ext, hb, _, _, _, htr⟩
    exact ⟨hb, htr⟩

theorem claim_C4_witness :
    (create_directories_from_remote_path_components mkcol [] ["a", "b"]).1
      = true
    ∧ (create_directories_from_remote_path_components mkcol []
        ["a", "b"]).2.2.length = 3 := by
  have h := claim_C4_amended.2.2 [] ["a", "b"] 0 (by decide) (Or.inl rfl)
    (fun j _ _ => by simp)
  exact ⟨h.1, h.2.trans (by decide)⟩

/-! ### Byte strings, path verbs and the path parsers -/

/-- A Python string as its UTF-8 byte sequence; the percent-encoding of the
locator functions operates on these bytes. -/
abbrev BStr := List Nat

/-- The byte sequence of an ASCII string literal. -/
def bytesOf (s : String) : BStr := s.data.map Char.toNat

/-- The path verbs of the external `fspathverbs` dependency (`Root`,
`Parent`, `Current`, `Child`). -/
inductive PathVerb where
  | root
  | parent
  | current
  | child (seg : BStr)
deriving DecidableEq

/-- Split a byte string at every separator byte 47. -/
def splitSep : BStr → List BStr
  | [] => [[]]
  | b :: rest =>
    match splitSep rest with
    | [] => [[]]
    | seg :: segs =>
      if b = 47 then [] :: seg :: segs else (b :: seg) :: segs

/-- Modelled from the spec: `compile_to_fspathverbs` of the external
`fspathverbs` dependency, whose source is not part of this repository.  A
leading separator yields the root marker; every further segment yields a
parent verb for `..`, a current verb for `.`, and a child verb otherwise;
empty segments arising from repeated separators are dropped. -/
def compile_to_fspathverbs (s : BStr) : List PathVerb :=
  (if s.head? = some 47 then [PathVerb.root] else [])
    ++ (splitSep s).filterMap (fun seg =>
      if seg = [] then none
      else if seg = [46] then some PathVerb.current
      else if seg = [46, 46] then some PathVerb.parent
      else some (PathVerb.child seg))

/-- The verb loop of `relative_local_path_to_relative_local_path_components`
(on a POSIX client `os.path.split` is `posixpath.split`): a parent verb pops
the last component or raises on an empty sequence, a current verb is a
no-op, a child verb appends, and anything else (the root marker) raises. -/
def localVerbFold : List PathVerb → List BStr → Except DavErr (List BStr)
  | [], acc => .ok acc
  | PathVerb.parent :: vs, acc =>
    if acc = [] then .error .pathSyntax else localVerbFold vs acc.dropLast
  | PathVerb.current :: vs, acc => localVerbFold vs acc
  | PathVerb.child c :: vs, acc => localVerbFold vs (acc ++ [c])
  | PathVerb.root :: _, _ => .error .pathSyntax

/-- `relative_local_path_to_relative_local_path_components`. -/
def relative_local_path_to_relative_local_path_components (s : BStr) :
    Except DavErr (List BStr) :=
  localVerbFold (compile_to_fspathverbs s) []

/-- The verb loop of `remote_path_to_remote_path_components`: the root
marker clears the accumulated components, a parent verb pops or raises, a
current verb is a no-op, a child verb appends. -/
def remoteVerbFold : List PathVerb → List BStr → Except DavErr (List BStr)
  | [], acc => .ok acc
  | PathVerb.root :: vs, _ => remoteVerbFold vs []
  | PathVerb.parent :: vs, acc =>
    if acc = [] then .error .pathSyntax else remoteVerbFold vs acc.dropLast
  | PathVerb.current :: vs, acc => remoteVerbFold vs acc
  | PathVerb.child c :: vs, acc => remoteVerbFold vs (acc ++ [c])

/-- `remote_path_to_remote_path_components`. -/
def remote_path_to_remote_path_components (s : BStr) :
    Except DavErr (List BStr) :=
  remoteVerbFold (compile_to_fspathverbs s) []

/-- The normalization described by the spec, as a total function: `.` is a
no-op, `..` pops the last component, any other segment is pushed, and a
root marker resets to the empty sequence. -/
def specNormalize : List PathVerb → List BStr → List BStr
  | [], acc => acc
  | PathVerb.root :: vs, _ => specNormalize vs []
  | PathVerb.parent :: vs, acc => specNormalize vs acc.dropLast
  | PathVerb.current :: vs, acc => specNormalize vs acc
  | PathVerb.child c :: vs, acc => specNormalize vs (acc ++ [c])

/-- Whether no parent verb is applied to an empty accumulated sequence when
starting from `n` accumulated components (the spec's balance condition). -/
def balancedFrom : List PathVerb → Nat → Bool
  | [], _ => true
  | PathVerb.root :: vs, _ => balancedFrom vs 0
  | PathVerb.parent :: vs, n =>
    if n = 0 then false else balancedFrom vs (n - 1)
  | PathVerb.current :: vs, n => balancedFrom vs n
  | PathVerb.child _ :: vs, n => balancedFrom vs (n + 1)

theorem remoteVerbFold_eq :
    ∀ (vs : List PathVerb) (acc : List BStr),
    remoteVerbFold vs acc
      = if balancedFrom vs acc.length then .ok (specNormalize vs acc)
        else .error .pathSyntax := by
  intro vs
  induction vs with
  | nil => intro acc; rfl
  | cons v vs ih =>
    intro acc
    cases v with
    | root =>
      rw [remoteVerbFold, ih []]
      rfl
    | parent =>
      by_cases hz : acc = []
      · subst hz
        rfl
      · have hlen : acc.length ≠ 0 := fun h => hz (List.length_eq_zero.1 h)
        rw [remoteVerbFold, if_neg hz, ih acc.dropLast, List.length_dropLast]
        have hb : balancedFrom (PathVerb.parent :: vs) acc.length
            = balancedFrom vs (acc.length - 1) := by
          rw [balancedFrom, if_neg hlen]
        rw [hb]
        simp only [specNormalize]
    | current =>
      rw [remoteVerbFold, ih acc]
      rfl
    | child c =>
      rw [remoteVerbFold, ih (acc ++ [c]), List.length_append]
      simp only [balancedFrom, specNormalize, List.length_cons,
        List.length_nil, Nat.zero_add]

theorem localVerbFold_eq :
    ∀ (vs : List PathVerb) (acc : List BStr), PathVerb.root ∉ vs →
    localVerbFold vs acc
      = if balancedFrom vs acc.length then .ok (specNormalize vs acc)
        else .error .pathSyntax := by
  intro vs
  induction vs with
  | nil => intro acc _; rfl
  | cons v vs ih =>
    intro acc hroot
    have hroot₂ : PathVerb.root ∉ vs := fun h => hroot (List.mem_cons_of_mem _ h)
    cases v with
    | root => exact absurd (List.mem_cons_self _ _) hroot
    | parent =>
      by_cases hz : acc = []
      · subst hz
        rfl
      · have hlen : acc.length ≠ 0 := fun h => hz (List.length_eq_zero.1 h)
        rw [localVerbFold, if_neg hz, ih acc.dropLast hroot₂,
          List.length_dropLast]
        have hb : balancedFrom (PathVerb.parent :: vs) acc.length
            = balancedFrom vs (acc.length - 1) := by
          rw [balancedFrom, if_neg hlen]
        rw [hb]
        simp only [specNormalize]
    | current =>
      rw [localVerbFold, ih acc hroot₂]
      rfl
    | child c =>
      rw [localVerbFold, ih (acc ++ [c]) hroot₂, List.length_append]
      simp only [balancedFrom, specNormalize, List.length_cons,
        List.length_nil, Nat.zero_add]

/-- C6: on any balanced verb sequence (no parent verb applied to an empty
sequence) both parsers return the spec's normalization: `.` is a no-op,
`..` pops, any other segment is pushed; the remote parser additionally
resets at a leading root marker, while the local parser is stated on its
domain of relative paths (no root marker). -/
theorem claim_C6 (s : BStr) :
    (PathVerb.root ∉ compile_to_fspathverbs s →
      balancedFrom (compile_to_fspathverbs s) 0 = true →
      relative_local_path_to_relative_local_path_components s
        = .ok (specNormalize (compile_to_fspathverbs s) []))
    ∧ (balancedFrom (compile_to_fspathverbs s) 0 = true →
      remote_path_to_remote_path_components s
        = .ok (specNormalize (compile_to_fspathverbs s) [])) := by
  constructor
  · intro hroot hbal
    rw [relative_local_path_to_relative_local_path_components,
      localVerbFold_eq _ _ hroot]
    simp only [List.length_nil, hbal, if_true]
  · intro hbal
    rw [remote_path_to_remote_path_components, remoteVerbFold_eq]
    simp only [List.length_nil, hbal, if_true]

theorem claim_C6_witness :
    balancedFrom (compile_to_fspathverbs (bytesOf "a/./b/../c")) 0 = true
    ∧ PathVerb.root ∉ compile_to_fspathverbs (bytesOf "a/./b/../c")
    ∧ relative_local_path_to_relative_local_path_components
        (bytesOf "a/./b/../c") = .ok [bytesOf "a", bytesOf "c"]
    ∧ remote_path_to_remote_path_components (bytesOf "a/./b/../c")
      = .ok [bytesOf "a", bytesOf "c"] := by
  refine ⟨by decide, by decide, ?_, ?_⟩
  · exact ((claim_C6 (bytesOf "a/./b/../c")).1 (by decide) (by decide)).trans
      (by rfl)
  · exact ((claim_C6 (bytesOf "a/./b/../c")).2 (by decide)).trans (by rfl)

/-- C7: each parser raises the path-syntax error exactly when some parent
verb is applied while the accumulated sequence is empty, and succeeds
exactly when no such pop occurs; the local parser is stated on its domain
of relative paths (no root marker). -/
theorem claim_C7 (s : BStr) :
    (PathVerb.root ∉ compile_to_fspathverbs s →
      (relative_local_path_to_relative_local_path_components s
          = .error .pathSyntax
        ↔ balancedFrom (compile_to_fspathverbs s) 0 = false))
    ∧ (remote_path_to_remote_path_components s = .error .pathSyntax
        ↔ balancedFrom (compile_to_fspathverbs s) 0 = false)
    ∧ (PathVerb.root ∉ compile_to_fspathverbs s →
      ((∃ cs, relative_local_path_to_relative_local_path_components s
          = .ok cs)
        ↔ balancedFrom (compile_to_fspathverbs s) 0 = true))
    ∧ ((∃ cs, remote_path_to_remote_path_components s = .ok cs)
        ↔ balancedFrom (compile_to_fspathverbs s) 0 = true) := by
  have hrem := remoteVerbFold_eq (compile_to_fspathverbs s) []
  simp only [List.length_nil] at hrem
  refine ⟨?_, ?_, ?_, ?_⟩
  · intro hroot
    have hloc := localVerbFold_eq (compile_to_fspathverbs s) [] hroot
    simp only [List.length_nil] at hloc
    rw [relative_local_path_to_relative_local_path_components, hloc]
    by_cases hb : balancedFrom (compile_to_fspathverbs s) 0 = true
    · simp [hb]
    · rw [Bool.not_eq_true] at hb
      simp [hb]
  · rw [remote_path_to_remote_path_components, hrem]
    by_cases hb : balancedFrom (compile_to_fspathverbs s) 0 = true
    · simp [hb]
    · rw [Bool.not_eq_true] at hb
      simp [hb]
  · intro hroot
    have hloc := localVerbFold_eq (compile_to_fspathverbs s) [] hroot
    simp only [List.length_nil] at hloc
    rw [relative_local_path_to_relative_local_path_components, hloc]
    by_cases hb : balancedFrom (compile_to_fspathverbs s) 0 = true
    · simp [hb]
    · rw [Bool.not_eq_true] at hb
      simp [hb]
  · rw [remote_path_to_remote_path_components, hrem]
    by_cases hb : balancedFrom (compile_to_fspathverbs s) 0 = true
    · simp [hb]
    · rw [Bool.not_eq_true] at hb
      simp [hb]

theorem claim_C7_witness :
    remote_path_to_remote_path_components (bytesOf "/../x")
      = .error .pathSyntax
    ∧ balancedFrom (compile_to_fspathverbs (bytesOf "/../x")) 0 = false := by
  refine ⟨?_, by decide⟩
  exact ((claim_C7 (bytesOf "/../x")).2.1).mpr (by decide)

/-! ### Percent-encoding and the locator functions -/

/-- Whether a byte passes `urllib.parse.quote` unchanged: letters, digits,
the bytes of the safe characters underscore, dot, dash, tilde, and the
default safe byte 47. -/
def isSafeByte (b : Nat) : Bool :=
  decide ((48 ≤ b ∧ b ≤ 57) ∨ (65 ≤ b ∧ b ≤ 90) ∨ (97 ≤ b ∧ b ≤ 122)
    ∨ b = 95 ∨ b = 46 ∨ b = 45 ∨ b = 126 ∨ b = 47)

/-- The uppercase hex digit byte of a value below 16 (`quote` renders
uppercase hex). -/
def hexDigitUpper (v : Nat) : Nat := if v < 10 then 48 + v else 55 + v

/-- `urllib.parse.quote(s, safe='/')` on the UTF-8 bytes of a string. -/
def quote : BStr → BStr
  | [] => []
  | b :: rest =>
    (if isSafeByte b then [b]
     else [37, hexDigitUpper (b / 16), hexDigitUpper (b % 16)]) ++ quote rest

/-- The value of a hex digit byte of either case. -/
def hexVal (b : Nat) : Option Nat :=
  if 48 ≤ b ∧ b ≤ 57 then some (b - 48)
  else if 65 ≤ b ∧ b ≤ 70 then some (b - 55)
  else if 97 ≤ b ∧ b ≤ 102 then some (b - 87)
  else none

/-- `urllib.parse.unquote` on bytes: a 37 followed by two hex digit bytes
becomes the encoded byte, anything else is kept unchanged. -/
def unquote : BStr → BStr
  | [] => []
  | [b] => [b]
  | [b, a] => [b, a]
  | b :: a :: c :: rest₂ =>
    if b = 37 then
      match hexVal a, hexVal c with
      | some x, some y => (16 * x + y) :: unquote rest₂
      | _, _ => b :: unquote (a :: c :: rest₂)
    else b :: unquote (a :: c :: rest₂)

theorem unquote_cons_of_ne {b : Nat} (hb : b ≠ 37) (t : BStr) :
    unquote (b :: t) = b :: unquote t := by
  cases t with
  | nil => rfl
  | cons a t₂ =>
    cases t₂ with
    | nil => rfl
    | cons c r => rw [unquote, if_neg hb]

theorem isSafeByte_ne_37 {b : Nat} (h : isSafeByte b = true) : b ≠ 37 := by
  intro hb
  rw [hb] at h
  exact absurd h (by decide)

theorem hexVal_hexDigitUpper {v : Nat} (h : v < 16) :
    hexVal (hexDigitUpper v) = some v := by
  rw [hexDigitUpper]
  by_cases hv : v < 10
  · rw [if_pos hv, hexVal, if_pos (by omega)]
    congr 1
    omega
  · rw [if_neg hv, hexVal, if_neg (by omega), if_pos (by omega)]
    congr 1
    omega

theorem hexDigitUpper_ne_47 (v : Nat) : hexDigitUpper v ≠ 47 := by
  rw [hexDigitUpper]
  split <;> omega

/-- Decoding inverts encoding on byte strings. -/
theorem unquote_quote : ∀ s : BStr, (∀ b, b ∈ s → b < 256) →
    unquote (quote s) = s := by
  intro s
  induction s with
  | nil => intro _; rfl
  | cons b rest ih =>
    intro hb
    have hb₀ : b < 256 := hb b (List.mem_cons_self _ _)
    have hrest := ih (fun x hx => hb x (List.mem_cons_of_mem _ hx))
    rw [quote]
    by_cases hsafe : isSafeByte b = true
    · rw [if_pos hsafe, List.cons_append, List.nil_append,
        unquote_cons_of_ne (isSafeByte_ne_37 hsafe), hrest]
    · rw [if_neg hsafe]
      show unquote (37 :: hexDigitUpper (b / 16) :: hexDigitUpper (b % 16)
        :: quote rest) = b :: rest
      rw [unquote, if_pos rfl, hexVal_hexDigitUpper (by omega),
        hexVal_hexDigitUpper (by omega), hrest]
      show (16 * (b / 16) + b % 16) :: rest = b :: rest
      congr 1
      exact Nat.div_add_mod b 16

theorem quote_ne_nil {c : BStr} (h : c ≠ []) : quote c ≠ [] := by
  cases c with
  | nil => exact absurd rfl h
  | cons b rest =>
    rw [quote]
    split <;> simp

theorem not_mem_47_quote {c : BStr} (h : 47 ∉ c) : 47 ∉ quote c := by
  induction c with
  | nil => simp [quote]
  | cons b rest ih =>
    rw [quote]
    intro hmem
    rcases List.mem_append.1 hmem with hmem | hmem
    · have hb : b ≠ 47 := fun hb => h (hb ▸ List.mem_cons_self _ _)
      split at hmem
      · rcases List.mem_singleton.1 hmem with rfl
        exact hb rfl
      · rcases List.mem_cons.1 hmem with h₀ | h₀
        · exact absurd h₀.symm (by decide)
        · rcases List.mem_cons.1 h₀ with h₁ | h₁
          · exact hexDigitUpper_ne_47 _ h₁.symm
          · rcases List.mem_singleton.1 h₁ with h₂
            exact hexDigitUpper_ne_47 _ h₂.symm
    · exact ih (fun hm => h (List.mem_cons_of_mem _ hm)) hmem

theorem quote_eq_nil {c : BStr} (h : quote c = []) : c = [] := by
  cases c with
  | nil => rfl
  | cons b rest =>
    rw [quote] at h
    revert h
    split <;> simp

theorem quote_eq_singleton {c : BStr} {x : Nat} (h : quote c = [x]) :
    c = [x] ∧ isSafeByte x = true := by
  cases c with
  | nil => exact absurd h (by rw [quote]; simp)
  | cons b rest =>
    rw [quote] at h
    revert h
    split
    · next hsafe =>
      intro h
      rw [List.cons_append, List.nil_append] at h
      rcases List.cons_eq_cons.1 h with ⟨rfl, h₂⟩
      rw [quote_eq_nil h₂]
      exact ⟨rfl, hsafe⟩
    · intro h
      rcases List.cons_eq_cons.1 h with ⟨_, h₂⟩
      exact absurd h₂ (by simp)

theorem quote_eq_dot {c : BStr} (h : quote c = [46]) : c = [46] :=
  (quote_eq_singleton h).1

theorem quote_eq_dotdot {c : BStr} (h : quote c = [46, 46]) : c = [46, 46] := by
  cases c with
  | nil => exact absurd h (by rw [quote]; simp)
  | cons b rest =>
    rw [quote] at h
    revert h
    split
    · next hsafe =>
      intro h
      rw [List.cons_append, List.nil_append] at h
      rcases List.cons_eq_cons.1 h with ⟨rfl, h₂⟩
      rw [quote_eq_dot h₂]
    · intro h
      rcases List.cons_eq_cons.1 h with ⟨h₁, _⟩
      exact absurd h₁ (by decide)

/-- The decimal digit bytes of `n` (the `%d` rendering of the port). -/
def natDigits (n : Nat) : BStr := go (n + 1) n where
  go : Nat → Nat → BStr
    | 0, _ => []
    | fuel + 1, m =>
      if m < 10 then [48 + m] else go fuel (m / 10) ++ [48 + m % 10]

/-- Join byte strings with the separator byte 47 (`'/'.join`). -/
def joinSep : List BStr → BStr
  | [] => []
  | [x] => x
  | x :: y :: ys => x ++ 47 :: joinSep (y :: ys)

/-- The base locator `http://host:port` both locator functions build. -/
def hrefBase (host : BStr) (port : Nat) : BStr :=
  bytesOf "http://" ++ host ++ 58 :: natDigits port

/-- `remote_path_components_to_href`: the base locator followed by the
percent-quoted components joined with separators. -/
def remote_path_components_to_href (host : BStr) (port : Nat)
    (remote_path_components : List BStr) : BStr :=
  hrefBase host port ++ 47 :: joinSep (remote_path_components.map quote)

/-- One step of `posixpath.normpath` on the segments of an absolute path:
empty and dot segments are dropped, a dot-dot segment pops (staying at the
root on an empty prefix), anything else is appended. -/
def normStep (acc : List BStr) (seg : BStr) : List BStr :=
  if seg = [] ∨ seg = [46] then acc
  else if seg = [46, 46] then acc.dropLast
  else acc ++ [seg]

/-- The normalized segments of `posixpath.abspath(s)` in a process whose
working directory has raw segment list `cwd`. -/
def absSegments (cwd : List BStr) (s : BStr) : List BStr :=
  if s.head? = some 47 then (splitSep s).foldl normStep []
  else (cwd ++ splitSep s).foldl normStep []

/-- The length of the common prefix of two segment lists
(`commonprefix`). -/
def commonPrefixLen : List BStr → List BStr → Nat
  | x :: xs, y :: ys => if x = y then commonPrefixLen xs ys + 1 else 0
  | _, _ => 0

/-- `posixpath.relpath(path, start)` with the working directory explicit:
both arguments are made absolute and normalized, the common prefix is
dropped, one dot-dot per remaining start segment is prepended, and the
result is joined (a lone dot when nothing remains). -/
def relpathSegments (cwd : List BStr) (path start : BStr) : BStr :=
  let pl := absSegments cwd path
  let sl := absSegments cwd start
  let i := commonPrefixLen sl pl
  let rel := List.replicate (sl.length - i) [46, 46] ++ pl.drop i
  if rel = [] then [46] else joinSep rel

/-- The verb loop of `href_to_remote_path_components`: a root marker and a
pop on an empty sequence raise the invalid-locator error, child segments
are percent-decoded and appended. -/
def hrefVerbFold : List PathVerb → List BStr → Except DavErr (List BStr)
  | [], acc => .ok acc
  | PathVerb.root :: _, _ => .error .invalidLocator
  | PathVerb.parent :: vs, acc =>
    if acc = [] then .error .invalidLocator else hrefVerbFold vs acc.dropLast
  | PathVerb.current :: vs, acc => hrefVerbFold vs acc
  | PathVerb.child c :: vs, acc => hrefVerbFold vs (acc ++ [unquote c])

/-- `href_to_remote_path_components`; `cwd` is the working directory that
`posixpath.relpath` consults through `abspath`. -/
def href_to_remote_path_components (cwd : List BStr) (host : BStr)
    (port : Nat) (href : BStr) : Except DavErr (List BStr) :=
  if (hrefBase host port).isPrefixOf href then
    hrefVerbFold (compile_to_fspathverbs
      (relpathSegments cwd href (hrefBase host port))) []
  else if href.head? = some 47 then
    hrefVerbFold (compile_to_fspathverbs (href.drop 1)) []
  else .error .invalidLocator

theorem splitSep_ne_nil : ∀ s : BStr, splitSep s ≠ [] := by
  intro s
  cases s with
  | nil => rw [splitSep]; simp
  | cons b rest =>
    rw [splitSep]
    rcases h : splitSep rest with _ | ⟨seg, segs⟩
    · simp
    · by_cases hb : b = 47 <;> simp [hb]

theorem splitSep_sep_append :
    ∀ x y : BStr, splitSep (x ++ 47 :: y) = splitSep x ++ splitSep y := by
  intro x y
  induction x with
  | nil =>
    rw [List.nil_append, splitSep]
    rcases h : splitSep y with _ | ⟨seg, segs⟩
    · exact absurd h (splitSep_ne_nil y)
    · rw [splitSep]
      simp [h]
  | cons b x ih =>
    rw [List.cons_append, splitSep, ih, splitSep]
    rcases h : splitSep x with _ | ⟨seg, segs⟩
    · exact absurd h (splitSep_ne_nil x)
    · by_cases hb : b = 47 <;> simp [hb, List.cons_append]

theorem splitSep_no_sep : ∀ x : BStr, 47 ∉ x → splitSep x = [x] := by
  intro x
  induction x with
  | nil => intro _; rfl
  | cons b rest ih =>
    intro h
    have hb : b ≠ 47 := fun hb => h (hb ▸ List.mem_cons_self _ _)
    rw [splitSep, ih (fun hm => h (List.mem_cons_of_mem _ hm))]
    simp [hb]

theorem splitSep_joinSep :
    ∀ qs : List BStr, qs ≠ [] → (∀ q, q ∈ qs → 47 ∉ q) →
    splitSep (joinSep qs) = qs := by
  intro qs
  induction qs with
  | nil => intro h _; exact absurd rfl h
  | cons x xs ih =>
    intro _ hq
    cases xs with
    | nil =>
      rw [joinSep, splitSep_no_sep x (hq x (List.mem_cons_self _ _))]
    | cons y ys =>
      rw [joinSep, splitSep_sep_append,
        splitSep_no_sep x (hq x (List.mem_cons_self _ _)),
        ih (List.cons_ne_nil _ _)
          (fun q hmem => hq q (List.mem_cons_of_mem _ hmem))]
      rfl

theorem foldl_normStep_clean :
    ∀ (qs : List BStr) (A : List BStr),
    (∀ q, q ∈ qs → q ≠ [] ∧ q ≠ [46] ∧ q ≠ [46, 46]) →
    qs.foldl normStep A = A ++ qs := by
  intro qs
  induction qs with
  | nil => intro A _; simp
  | cons q qs ih =>
    intro A hq
    rcases hq q (List.mem_cons_self _ _) with ⟨h₁, h₂, h₃⟩
    rw [List.foldl_cons, normStep, if_neg (by tauto), if_neg h₃,
      ih (A ++ [q]) (fun p hp => hq p (List.mem_cons_of_mem _ hp)),
      List.append_assoc]
    rfl

theorem commonPrefixLen_self_append :
    ∀ l t : List BStr, commonPrefixLen l (l ++ t) = l.length := by
  intro l t
  induction l with
  | nil => rfl
  | cons x xs ih =>
    rw [List.cons_append, commonPrefixLen, if_pos rfl, ih, List.length_cons]

theorem joinSep_head? :
    ∀ (x : BStr) (xs : List BStr), x ≠ [] →
    (joinSep (x :: xs)).head? = x.head? := by
  intro x xs hx
  cases xs with
  | nil => rfl
  | cons y ys =>
    cases x with
    | nil => exact absurd rfl hx
    | cons b rest => rfl

theorem hrefVerbFold_children :
    ∀ (qs : List BStr) (acc : List BStr),
    hrefVerbFold (qs.map PathVerb.child) acc = .ok (acc ++ qs.map unquote) := by
  intro qs
  induction qs with
  | nil => intro acc; simp [hrefVerbFold]
  | cons q qs ih =>
    intro acc
    rw [List.map_cons, hrefVerbFold, ih, List.map_cons, List.append_assoc]
    rfl

theorem filterMap_segVerb_clean :
    ∀ qs : List BStr,
    (∀ q, q ∈ qs → q ≠ [] ∧ q ≠ [46] ∧ q ≠ [46, 46]) →
    qs.filterMap (fun seg =>
      if seg = [] then none
      else if seg = [46] then some PathVerb.current
      else if seg = [46, 46] then some PathVerb.parent
      else some (PathVerb.child seg))
      = qs.map PathVerb.child := by
  intro qs
  induction qs with
  | nil => intro _; rfl
  | cons q qs ih =>
    intro hq
    rcases hq q (List.mem_cons_self _ _) with ⟨h₁, h₂, h₃⟩
    rw [List.filterMap_cons, List.map_cons,
      ih (fun p hp => hq p (List.mem_cons_of_mem _ hp))]
    simp [h₁, h₂, h₃]

theorem isPrefixOf_self_append : ∀ l t : BStr, l.isPrefixOf (l ++ t) = true := by
  intro l t
  induction l with
  | nil => simp [List.isPrefixOf]
  | cons b l ih => simp [List.isPrefixOf, ih]

theorem head?_ne_47 {t : BStr} (ht : t ≠ []) (h47 : 47 ∉ t) :
    ¬(t.head? = some 47) := by
  cases t with
  | nil => exact absurd rfl ht
  | cons b r =>
    intro hh
    rw [List.head?_cons, Option.some.injEq] at hh
    exact h47 (hh ▸ List.mem_cons_self _ _)

theorem href_round_trip (cwd : List BStr) (host : BStr) (port : Nat)
    (cs : List BStr)
    (hcs : ∀ c, c ∈ cs → c ≠ [] ∧ 47 ∉ c ∧ c ≠ [46] ∧ c ≠ [46, 46]
      ∧ ∀ b, b ∈ c → b < 256) :
    href_to_remote_path_components cwd host port
      (remote_path_components_to_href host port cs) = .ok cs := by
  have hBhead : (hrefBase host port).head? = some 104 := rfl
  have hLhead : (remote_path_components_to_href host port cs).head?
      = some 104 := rfl
  have hLpre : (hrefBase host port).isPrefixOf
      (remote_path_components_to_href host port cs) = true := by
    rw [remote_path_components_to_href]
    exact isPrefixOf_self_append _ _
  rw [href_to_remote_path_components, if_pos hLpre]
  have hS : absSegments cwd (hrefBase host port)
      = (cwd ++ splitSep (hrefBase host port)).foldl normStep [] := by
    rw [absSegments, if_neg (by rw [hBhead]; simp)]
  set S := (cwd ++ splitSep (hrefBase host port)).foldl normStep [] with hSdef
  cases cs with
  | nil =>
    have habsL : absSegments cwd (remote_path_components_to_href host port [])
        = S := by
      rw [absSegments, if_neg (by rw [hLhead]; simp),
        remote_path_components_to_href]
      show (cwd ++ splitSep (hrefBase host port ++ 47 :: joinSep [])).foldl
        normStep [] = S
      rw [splitSep_sep_append, ← List.append_assoc, List.foldl_append]
      rfl
    have hcpl : commonPrefixLen S S = S.length := by
      have h := commonPrefixLen_self_append S []
      rwa [List.append_nil] at h
    rw [relpathSegments]
    simp only [habsL, hS]
    rw [hcpl, Nat.sub_self, List.replicate_zero, List.drop_length,
      List.nil_append, if_pos rfl]
    rfl
  | cons c cs' =>
    have hq : ∀ q, q ∈ (c :: cs').map quote →
        47 ∉ q ∧ q ≠ [] ∧ q ≠ [46] ∧ q ≠ [46, 46] := by
      intro q hqmem
      rcases List.mem_map.1 hqmem with ⟨c₀, hc₀, rfl⟩
      rcases hcs c₀ hc₀ with ⟨h1, h2, h3, h4, _⟩
      exact ⟨not_mem_47_quote h2, quote_ne_nil h1,
        fun he => h3 (quote_eq_dot he), fun he => h4 (quote_eq_dotdot he)⟩
    have hqs_ne : (c :: cs').map quote ≠ [] := by simp
    have hsplitJ : splitSep (joinSep ((c :: cs').map quote))
        = (c :: cs').map quote :=
      splitSep_joinSep _ hqs_ne (fun q hqm => (hq q hqm).1)
    have habsL : absSegments cwd
        (remote_path_components_to_href host port (c :: cs'))
        = S ++ (c :: cs').map quote := by
      rw [absSegments, if_neg (by rw [hLhead]; simp),
        remote_path_components_to_href, splitSep_sep_append, hsplitJ,
        ← List.append_assoc, List.foldl_append, ← hSdef]
      exact foldl_normStep_clean _ S (fun q hqm => (hq q hqm).2)
    have hrel : relpathSegments cwd
        (remote_path_components_to_href host port (c :: cs'))
        (hrefBase host port) = joinSep ((c :: cs').map quote) := by
      rw [relpathSegments]
      simp only [habsL, hS, ← hSdef]
      rw [commonPrefixLen_self_append, Nat.sub_self, List.replicate_zero,
        List.drop_left, List.nil_append, if_neg (by simp)]
    rw [hrel]
    have hhead : ¬((joinSep ((c :: cs').map quote)).head? = some 47) := by
      rw [List.map_cons, joinSep_head? _ _ (quote_ne_nil (hcs c
        (List.mem_cons_self _ _)).1)]
      exact head?_ne_47 (quote_ne_nil (hcs c (List.mem_cons_self _ _)).1)
        (not_mem_47_quote (hcs c (List.mem_cons_self _ _)).2.1)
    rw [compile_to_fspathverbs, if_neg hhead, hsplitJ, List.nil_append,
      filterMap_segVerb_clean _ (fun q hqm => (hq q hqm).2),
      hrefVerbFold_children, List.nil_append, List.map_map]
    congr 1
    have hid : ∀ c₀, c₀ ∈ (c :: cs') → (unquote ∘ quote) c₀ = c₀ :=
      fun c₀ h => unquote_quote c₀ (hcs c₀ h).2.2.2.2
    rw [List.map_congr_left hid]
    simp

/-- C5 fails as stated: the locator parser is among "the parsers", and its
output components may contain percent-decoded separator bytes (for example
`a%2F%2Fb`, which parses to the single component `a//b`); rendering such a
component and parsing it back splits at the decoded separators, so the
re-rendered locator differs from the original. -/
theorem claim_C5_counterexample :
    href_to_remote_path_components [] [104] 1 (bytesOf "http://h:1/a%2F%2Fb")
      = .ok [[97, 47, 47, 98]]
    ∧ (href_to_remote_path_components [] [104] 1
        (remote_path_components_to_href [104] 1 [[97, 47, 47, 98]])).map
        (remote_path_components_to_href [104] 1)
      = .ok (remote_path_components_to_href [104] 1 [[97], [98]])
    ∧ remote_path_components_to_href [104] 1 [[97], [98]]
      ≠ remote_path_components_to_href [104] 1 [[97, 47, 47, 98]] :=
  ⟨rfl, rfl, by decide⟩

/-- C5 (amended): for a fixed host and port and any working directory,
rendering the components parsed back from a locator this system produced
reproduces the locator exactly, provided the component sequence consists of
non-empty separator-free byte strings other than dot and dot-dot — which
holds for every output of the two path-string parsers, though not for every
output of the locator parser. -/
theorem claim_C5_amended (cwd : List BStr) (host : BStr) (port : Nat)
    (cs : List BStr)
    (hcs : ∀ c, c ∈ cs → c ≠ [] ∧ 47 ∉ c ∧ c ≠ [46] ∧ c ≠ [46, 46]
      ∧ ∀ b, b ∈ c → b < 256) :
    (href_to_remote_path_components cwd host port
      (remote_path_components_to_href host port cs)).map
      (remote_path_components_to_href host port)
    = .ok (remote_path_components_to_href host port cs) := by
  rw [href_round_trip cwd host port cs hcs]
  rfl

theorem claim_C5_witness :
    (∀ c, c ∈ [[97], [98, 99]] → c ≠ ([] : BStr) ∧ 47 ∉ c ∧ c ≠ [46]
      ∧ c ≠ [46, 46] ∧ ∀ b, b ∈ c → b < 256)
    ∧ (href_to_remote_path_components [[119]] [104] 80
        (remote_path_components_to_href [104] 80 [[97], [98, 99]])).map
        (remote_path_components_to_href [104] 80)
      = .ok (remote_path_components_to_href [104] 80 [[97], [98, 99]]) :=
  ⟨by decide, claim_C5_amended [[119]] [104] 80 [[97], [98, 99]] (by decide)⟩

end SimpleDav
